import Mathlib

set_option maxRecDepth 8192

/-!
Verification of the Music-Library registration demo (`src/main.cpp`).

The program keeps three containers: a `std::vector<std::string>` of
participants in registration order, a `std::set<std::string>` of unique
names (lexicographically ordered), and a `std::map<std::string,int>` of
latest scores (lexicographically ordered by key).  It ingests a fixed
list of five (name, score) pairs and then prints three labeled report
sections to standard output.

The ordered set and the ordered map are embedded as sorted lists, with
insertion defined purely through the strict comparison `<`, exactly as
`std::set::insert` and `std::map::operator[]` locate keys: two keys are
equivalent iff neither is less than the other.  `std::string`'s
`operator<` compares character by character, which is embedded as the
executable `charListLt` below; `strLt_iff` shows it agrees with the
mathematical lexicographic order `<` on `String`.
-/

/-- `std::string::operator<`: lexicographic comparison, character by
character; a proper prefix is smaller than the longer string. -/
def charListLt : List Char → List Char → Bool
  | [], [] => false
  | [], _ :: _ => true
  | _ :: _, [] => false
  | a :: as, b :: bs =>
    if a < b then true
    else if b < a then false
    else charListLt as bs

/-- Comparison of two strings, via their character lists. -/
def strLt (a b : String) : Bool :=
  charListLt a.data b.data

/-- `charListLt` decides the lexicographic strict order on `List Char`. -/
theorem charListLt_iff : ∀ as bs : List Char, charListLt as bs = true ↔ as < bs := by
  intro as
  induction as with
  | nil =>
    intro bs
    cases bs with
    | nil =>
      constructor
      · intro h; simp [charListLt] at h
      · intro h; exact absurd h (List.Lex.not_nil_right _ _)
    | cons b bs =>
      constructor
      · intro _; exact List.Lex.nil
      · intro _; rfl
  | cons a as ih =>
    intro bs
    cases bs with
    | nil =>
      constructor
      · intro h; simp [charListLt] at h
      · intro h; exact absurd h (List.Lex.not_nil_right _ _)
    | cons b bs =>
      show (if a < b then true else if b < a then false else charListLt as bs) = true ↔ _
      by_cases hab : a < b
      · rw [if_pos hab]
        exact iff_of_true rfl (List.Lex.rel hab)
      · by_cases hba : b < a
        · rw [if_neg hab, if_pos hba]
          refine iff_of_false (by simp) ?_
          intro h
          cases h with
          | cons h' => exact lt_irrefl a hba
          | rel h' => exact hab h'
        · have heq : a = b := le_antisymm (not_lt.mp hba) (not_lt.mp hab)
          subst heq
          rw [if_neg hab, if_neg hba]
          rw [ih bs]
          constructor
          · intro h; exact List.Lex.cons h
          · intro h
            cases h with
            | cons h' => exact h'
            | rel h' => exact absurd h' (lt_irrefl a)

/-- `strLt` decides the lexicographic strict order on `String`. -/
theorem strLt_iff (a b : String) : strLt a b = true ↔ a < b := by
  rw [String.lt_iff_toList_lt]
  exact charListLt_iff a.data b.data

/-- Model of `std::set<std::string>::insert`: keep the list sorted by `<`;
if the element is already present (neither `x < y` nor `y < x` at the
candidate position) the set is unchanged. -/
def setInsert (x : String) : List String → List String
  | [] => [x]
  | y :: rest =>
    if strLt x y then x :: y :: rest
    else if strLt y x then y :: setInsert x rest
    else y :: rest

/-- Model of `scores[name] = score` on a `std::map<std::string,int>`:
keep the association list sorted by key; an existing equivalent key has
its value overwritten (last write wins), otherwise the pair is inserted
at its sorted position. -/
def mapUpsert (k : String) (v : Int) : List (String × Int) → List (String × Int)
  | [] => [(k, v)]
  | (k', v') :: rest =>
    if strLt k k' then (k, v) :: (k', v') :: rest
    else if strLt k' k then (k', v') :: mapUpsert k v rest
    else (k', v) :: rest

/-- The three containers of `main` (`participants`, `uniqueNames`,
`scores`, lines 9-13 of `main.cpp`). -/
structure ProgState where
  participants : List String
  uniqueNames : List String
  scores : List (String × Int)
  deriving DecidableEq, Repr

/-- All three containers start empty. -/
def initState : ProgState := ⟨[], [], []⟩

/-- One iteration of the ingest loop (lines 25-39 of `main.cpp`):
`participants.push_back(name)`, `uniqueNames.insert(name)`,
`scores[name] = score`. -/
def step (st : ProgState) (entry : String × Int) : ProgState :=
  { participants := st.participants ++ [entry.1]
    uniqueNames := setInsert entry.1 st.uniqueNames
    scores := mapUpsert entry.1 entry.2 st.scores }

/-- The whole ingest loop: fold `step` over the input sequence. -/
def ingest (input : List (String × Int)) : ProgState :=
  input.foldl step initState

/-- The hardcoded input sequence `incomingData` (lines 17-23 of `main.cpp`). -/
def incomingData : List (String × Int) :=
  [("Alice", 95), ("Bob", 80), ("Alice", 97), ("Charlie", 100), ("Diana", 75)]

/-- Rendering of the two space-separated name lines: each element is
printed followed by one space (`std::cout << *it << " "`). -/
def renderNames (l : List String) : String :=
  String.join (l.map (fun n => n ++ " "))

/-- Rendering of the score section: one line per entry,
`std::cout << it->first << " : " << it->second << std::endl`. -/
def renderScores (m : List (String × Int)) : String :=
  String.join (m.map (fun p => p.1 ++ " : " ++ toString p.2 ++ "\n"))

/-- The full report phase (lines 42-59 of `main.cpp`): three labeled
sections, the first two each followed by a blank line (`"\n\n"`). -/
def renderOutput (st : ProgState) : String :=
  "All participants (in order of registration):\n" ++
    renderNames st.participants ++ "\n\n" ++
  "Unique participants:\n" ++
    renderNames st.uniqueNames ++ "\n\n" ++
  "Final scores:\n" ++
    renderScores st.scores

/-- Result of one whole run of `main`: the text written to standard
output and the exit code (`return 0`, line 61 of `main.cpp`). -/
def mainResult : String × Int :=
  (renderOutput (ingest incomingData), 0)

/-- The environment a process run could observe: command-line arguments
and environment variables. -/
structure Environment where
  args : List String
  vars : List (String × String)

/-- A run of the program in a given environment.  The program consumes
no arguments, no environment variables and no input, so the result
ignores the environment entirely. -/
def programRun (_ : Environment) : String × Int :=
  mainResult

/-- Score of the last occurrence of `name` in `input`, if any. -/
def lastScore (input : List (String × Int)) (name : String) : Option Int :=
  input.foldl (fun acc p => if p.1 = name then some p.2 else acc) none

/-- Number of distinct names among the entries of `input`. -/
def distinctCount (input : List (String × Int)) : Nat :=
  ((input.map Prod.fst).dedup).length

/-- Splits a character list into the lines it spells, cutting at each
newline character; `acc` holds the current line, reversed. -/
def splitLinesAux : List Char → List Char → List String
  | [], acc => [String.mk acc.reverse]
  | c :: cs, acc =>
    if c = Char.ofNat 10 then String.mk acc.reverse :: splitLinesAux cs []
    else splitLinesAux cs (c :: acc)

/-- The printed output, split into its lines at each newline character. -/
def outputLines (s : String) : List String :=
  splitLinesAux s.data []

/-- C1: after ingesting the fixed input sequence, the score mapping holds
exactly Alice:97, Bob:80, Charlie:100, Diana:75 (in key order); in
particular Alice's score is the 97 of her last occurrence, not 95. -/
theorem scores_after_ingest :
    (ingest incomingData).scores =
      [("Alice", 97), ("Bob", 80), ("Charlie", 100), ("Diana", 75)] ∧
    List.lookup "Alice" (ingest incomingData).scores = some 97 ∧
    List.lookup "Alice" (ingest incomingData).scores ≠ some 95 := by
  refine ⟨by decide, by decide, by decide⟩

/-- C3: after ingest of the fixed input, the registration log is exactly
["Alice", "Bob", "Alice", "Charlie", "Diana"]: insertion order and the
duplicate are preserved, one entry per input tuple. -/
theorem participants_after_ingest :
    (ingest incomingData).participants =
      ["Alice", "Bob", "Alice", "Charlie", "Diana"] ∧
    (ingest incomingData).participants = incomingData.map Prod.fst := by
  refine ⟨by decide, by decide⟩

/-- C4: after ingest of the fixed input, the unique-name set is exactly
the four names Alice, Bob, Charlie, Diana, and iterating it yields them
in strictly increasing lexicographic order. -/
theorem uniqueNames_after_ingest :
    (ingest incomingData).uniqueNames = ["Alice", "Bob", "Charlie", "Diana"] ∧
    List.Sorted (· < ·) (ingest incomingData).uniqueNames := by
  have he : (ingest incomingData).uniqueNames = ["Alice", "Bob", "Charlie", "Diana"] := by
    decide
  refine ⟨he, ?_⟩
  rw [he]
  have hp : List.Pairwise (fun a b => strLt a b = true)
      ["Alice", "Bob", "Charlie", "Diana"] := by decide
  exact hp.imp (fun h => (strLt_iff _ _).mp h)

set_option maxRecDepth 4096 in
/-- C2: for every prefix of the fixed input (first `k` of its 5 tuples):
the unique-name set's cardinality equals the number of distinct names
among those `k` tuples, the score mapping's key list is exactly the
unique-name set (hence equal cardinality), every mapping entry carries
the score of that name's last occurrence among the first `k` tuples, and
the registration log's length equals `k`. -/
theorem ingest_prefix_invariants :
    ∀ k : Nat, k ≤ 5 →
      (ingest (incomingData.take k)).uniqueNames.length
          = distinctCount (incomingData.take k) ∧
      (ingest (incomingData.take k)).scores.map Prod.fst
          = (ingest (incomingData.take k)).uniqueNames ∧
      (ingest (incomingData.take k)).scores.length
          = (ingest (incomingData.take k)).uniqueNames.length ∧
      (∀ p ∈ (ingest (incomingData.take k)).scores,
          some p.2 = lastScore (incomingData.take k) p.1) ∧
      (ingest (incomingData.take k)).participants.length = k := by
  decide

/-- Witness for C2: the invariant instantiated at the prefix of length 3. -/
theorem ingest_prefix_invariants_witness :
    3 ≤ 5 ∧
    ((ingest (incomingData.take 3)).uniqueNames.length
        = distinctCount (incomingData.take 3) ∧
      (ingest (incomingData.take 3)).scores.map Prod.fst
        = (ingest (incomingData.take 3)).uniqueNames ∧
      (ingest (incomingData.take 3)).scores.length
        = (ingest (incomingData.take 3)).uniqueNames.length ∧
      (∀ p ∈ (ingest (incomingData.take 3)).scores,
        some p.2 = lastScore (incomingData.take 3) p.1) ∧
      (ingest (incomingData.take 3)).participants.length = 3) :=
  ⟨by decide, ingest_prefix_invariants 3 (by decide)⟩

/-- C5: the report phase prints exactly three labeled sections in order:
the registration log space-separated on one line under "All participants
(in order of registration):", the unique names in lexicographic order
space-separated on one line under "Unique participants:", and the score
mapping in lexicographic key order, one `name : score` line each, under
"Final scores:". -/
theorem report_output :
    renderOutput (ingest incomingData) =
      "All participants (in order of registration):\nAlice Bob Alice Charlie Diana \n\nUnique participants:\nAlice Bob Charlie Diana \n\nFinal scores:\nAlice : 97\nBob : 80\nCharlie : 100\nDiana : 75\n" := by
  decide

/-- C6: insertion into the unique-name set is idempotent: inserting a
name that is already present leaves the set unchanged. -/
theorem setInsert_mem_noop :
    ∀ (s : List String) (x : String),
      List.Sorted (· < ·) s → x ∈ s → setInsert x s = s := by
  intro s
  induction s with
  | nil =>
    intro x _ hx
    cases hx
  | cons y rest ih =>
    intro x hs hx
    rw [List.sorted_cons] at hs
    obtain ⟨hy, hrest⟩ := hs
    show (if strLt x y then x :: y :: rest
          else if strLt y x then y :: setInsert x rest
          else y :: rest) = y :: rest
    by_cases h1 : strLt x y = true
    · exfalso
      have hxy : x < y := (strLt_iff x y).mp h1
      rcases List.mem_cons.mp hx with heq | hmem
      · exact lt_irrefl x (heq ▸ hxy)
      · exact lt_irrefl x (hxy.trans (hy x hmem))
    · rw [if_neg h1]
      by_cases h2 : strLt y x = true
      · have hyx : y < x := (strLt_iff y x).mp h2
        have hne : x ≠ y := fun he => lt_irrefl y (he ▸ hyx)
        have hmem : x ∈ rest := by
          rcases List.mem_cons.mp hx with he | hm
          · exact absurd he hne
          · exact hm
        rw [if_pos h2, ih x hrest hmem]
      · rw [if_neg h2]

/-- Witness for C6: re-inserting "Alice" into the sorted set containing
"Alice" and "Bob" is a no-op. -/
theorem setInsert_mem_noop_witness :
    (List.Sorted (· < ·) ["Alice", "Bob"] ∧ "Alice" ∈ ["Alice", "Bob"]) ∧
    setInsert "Alice" ["Alice", "Bob"] = ["Alice", "Bob"] := by
  have hp : List.Pairwise (fun a b => strLt a b = true) ["Alice", "Bob"] := by
    decide
  have hs : List.Sorted (· < ·) ["Alice", "Bob"] :=
    hp.imp (fun h => (strLt_iff _ _).mp h)
  exact ⟨⟨hs, by decide⟩, setInsert_mem_noop ["Alice", "Bob"] "Alice" hs (by decide)⟩

/-- C7: the program is deterministic: its observable result (standard
output text and exit code) is the same for any two runs, whatever the
command-line arguments or environment variables are. -/
theorem run_deterministic (e₁ e₂ : Environment) :
    programRun e₁ = programRun e₂ := rfl

/-- C8: an input sequence with zero tuples yields an empty registration
log, an empty unique-name set and an empty score mapping, and the report
still prints the three labeled headers with no entries beneath them. -/
theorem empty_input_report :
    ingest [] = initState ∧
    (ingest []).participants = [] ∧
    (ingest []).uniqueNames = [] ∧
    (ingest []).scores = [] ∧
    renderOutput (ingest []) =
      "All participants (in order of registration):\n\n\nUnique participants:\n\n\nFinal scores:\n" := by
  refine ⟨rfl, rfl, rfl, rfl, by decide⟩

/-- C9: the program always runs to completion (`mainResult` and
`programRun` are total functions) and the exit code is 0 on every run;
no execution path returns a non-zero status. -/
theorem exit_code_always_zero :
    mainResult.2 = 0 ∧ ∀ e : Environment, (programRun e).2 = 0 :=
  ⟨rfl, fun _ => rfl⟩

/-- C10: line layout of the printed output: each name on the
participants line and on the unique-participants line is followed by a
single space (so both lines carry a trailing space), the first two
sections are each followed by one blank line, and every score-mapping
entry appears as its own line `name : score`. -/
theorem output_line_layout :
    outputLines (renderOutput (ingest incomingData)) =
      ["All participants (in order of registration):",
       "Alice Bob Alice Charlie Diana ",
       "",
       "Unique participants:",
       "Alice Bob Charlie Diana ",
       "",
       "Final scores:",
       "Alice : 97",
       "Bob : 80",
       "Charlie : 100",
       "Diana : 75",
       ""] ∧
    "Alice Bob Alice Charlie Diana " =
      String.join ((ingest incomingData).participants.map (fun n => n ++ " ")) ∧
    "Alice Bob Charlie Diana " =
      String.join ((ingest incomingData).uniqueNames.map (fun n => n ++ " ")) ∧
    ∀ p ∈ (ingest incomingData).scores,
      p.1 ++ " : " ++ toString p.2 ∈ outputLines (renderOutput (ingest incomingData)) := by
  refine ⟨by decide, by decide, by decide, by decide⟩
